import Mathlib

/-!
Verification of the computational core of `sage-pyo3`: peak annotation
(`src/annotate.rs`), chromatogram extraction (`src/lfq.rs`) and sequence
validation (`src/lib.rs`).  Machine floats (`f32`) are embedded as exact
rationals (`ℚ`); Rust vectors become Lean lists.  The repository delegates
the range-search primitive, the tolerance window, the ion-series builder and
the residue tables to the external `sage_core` crate; those are modelled
from the spec (§4.1–§4.3), as marked on each definition.  The rayon
`par_iter …  collect` pipelines preserve input order, so they are embedded
as ordinary list traversals.
-/

namespace Sage

/-- An observed peak: neutral singly-charged monoisotopic mass and intensity
(spec §3; `sage_core::spectrum::Peak`). -/
structure Peak where
  mass : ℚ
  intensity : ℚ
deriving DecidableEq

/-- A processed spectrum: MS level, retention time and mass-sorted peaks
(spec §3; `sage_core::spectrum::ProcessedSpectrum`, the fields used by this
repository). -/
structure ProcessedSpectrum where
  level : ℕ
  scan_start_time : ℚ
  peaks : List Peak
deriving DecidableEq

/-- Fragment-ion kind (`sage_core::ion_series::Kind`): B or Y series. -/
inductive Kind where
  | B : Kind
  | Y : Kind
deriving DecidableEq

/-- A theoretical fragment ion (`sage_core::ion_series::Ion`). -/
structure Ion where
  kind : Kind
  monoisotopic_mass : ℚ
deriving DecidableEq

/-- Output of the peak annotator (`src/annotate.rs`, `AnnotatedPeak`). -/
structure AnnotatedPeak where
  mass : ℚ
  intensity : ℚ
  ion : Char
  index : ℕ
  charge : ℕ
deriving DecidableEq

/-- One chromatogram sample (`src/lfq.rs`, `Xic`). -/
structure Xic where
  rt : ℚ
  mass : ℚ
  intensity : ℚ
deriving DecidableEq

/-- Modelled from the spec: §4.2 Tolerance Window — the tagged union
`Ppm(lo_ppm, hi_ppm) | Absolute(lo, hi)` (`sage_core::mass::Tolerance` is
external to this repository). -/
inductive Tolerance where
  | Ppm : ℚ → ℚ → Tolerance
  | Absolute : ℚ → ℚ → Tolerance
deriving DecidableEq

/-- Modelled from the spec: §4.2 — `Ppm(lo_ppm, hi_ppm).bounds(center)`
returns `(center * (1 + lo_ppm/1e6), center * (1 + hi_ppm/1e6))`;
`Absolute(lo, hi).bounds(center)` returns `(center + lo, center + hi)`. -/
def Tolerance.bounds : Tolerance → ℚ → ℚ × ℚ
  | .Ppm lo hi, center => (center * (1 + lo / 1000000), center * (1 + hi / 1000000))
  | .Absolute lo hi, center => (center + lo, center + hi)

/-- Modelled from the spec: §4.1 — index returned by the first of the two
binary searches, the lower bound for `lo` (first index whose key is not
below `lo`). -/
def lowerIdx {α : Type} (key : α → ℚ) (S : List α) (lo : ℚ) : ℕ :=
  (S.takeWhile (fun a => key a < lo)).length

/-- Modelled from the spec: §4.1 — index returned by the second binary
search, the upper bound for `hi` (one past the last index whose key is not
above `hi`). -/
def upperIdx {α : Type} (key : α → ℚ) (S : List α) (hi : ℚ) : ℕ :=
  (S.takeWhile (fun a => key a ≤ hi)).length

/-- Modelled from the spec: §4.1 Bounded Range Search
(`sage_core::database::binary_search_slice` is external to this repository)
— two binary searches giving `(start, end)` over a sequence sorted by
`key`. -/
def binary_search_slice {α : Type} (key : α → ℚ) (S : List α) (lo hi : ℚ) : ℕ × ℕ :=
  (lowerIdx key S lo, upperIdx key S hi)

/-- Rust slice `&S[w.0..w.1]`. -/
def slice {α : Type} (S : List α) (w : ℕ × ℕ) : List α :=
  (S.take w.2).drop w.1

/-- Monoisotopic mass of water, added to every Y ion (external
`sage_core::mass::H2O`). -/
def H2O : ℚ := 18010565 / 1000000

/-- Modelled from the spec: §4.3 — the B ion series of a peptide (residue
monoisotopic masses `rs`): one N-terminal prefix mass per residue boundary,
in generation order (`sage_core::ion_series::IonSeries` is external to this
repository). -/
def ionSeriesB (rs : List ℚ) : List Ion :=
  (List.range' 1 (rs.length - 1)).map (fun i => ⟨Kind.B, (rs.take i).sum⟩)

/-- Modelled from the spec: §4.3 — the Y ion series: one C-terminal suffix
mass (plus water) per residue boundary, in generation order. -/
def ionSeriesY (rs : List ℚ) : List Ion :=
  (List.range' 1 (rs.length - 1)).map (fun i => ⟨Kind.Y, (rs.drop i).sum + H2O⟩)

/-- B part of the ladder with ordinals, from `src/annotate.rs`:
`IonSeries::new(&peptide, Kind::B).enumerate().map(|(idx, ion)| (idx + 1, ion))`. -/
def bLadder (rs : List ℚ) : List (ℕ × Ion) :=
  (ionSeriesB rs).enum.map (fun p => (p.1 + 1, p.2))

/-- Y part of the ladder with ordinals, from `src/annotate.rs`:
`.enumerate().map(|(idx, ion)| (peptide.sequence.len().saturating_sub(1 + idx), ion))`
(ℕ subtraction is saturating, exactly like `saturating_sub`). -/
def yLadder (rs : List ℚ) : List (ℕ × Ion) :=
  (ionSeriesY rs).enum.map (fun p => (rs.length - (1 + p.1), p.2))

/-- Comparison used by `fragments.sort_unstable_by(..monoisotopic_mass.total_cmp..)`. -/
def fragLe (a b : ℕ × Ion) : Bool :=
  a.2.monoisotopic_mass ≤ b.2.monoisotopic_mass

/-- The fragment ladder of `src/annotate.rs`: B and Y series chained and
sorted ascending by monoisotopic mass. -/
def fragments (rs : List ℚ) : List (ℕ × Ion) :=
  (bLadder rs ++ yLadder rs).mergeSort fragLe

/-- Ion-kind character emitted by `src/annotate.rs`
(`Kind::B => 'b', Kind::Y => 'y'`). -/
def kindChar : Kind → Char
  | .B => 'b'
  | .Y => 'y'

/-- The peak annotator of `src/annotate.rs` (`annotate_peaks`): for every
observed peak and every trial charge in `1..charge` (default 2), scale the
peak mass, take ppm bounds, binary-search the sorted ladder, filter the
window by the bounds and emit one `AnnotatedPeak` per match.  The rayon
`par_iter/flat_map_iter/collect` pipeline preserves order, embedded as
nested `flatMap`. -/
def annotate_peaks (query : ProcessedSpectrum) (peptide : List ℚ)
    (tolerance_ppm : ℚ) (charge : Option ℕ) : List AnnotatedPeak :=
  let frags := fragments peptide
  let charge := charge.getD 2
  query.peaks.flatMap (fun peak =>
    (List.range' 1 (charge - 1)).flatMap (fun c =>
      let mass := peak.mass * (c : ℚ)
      let b := (Tolerance.Ppm (-tolerance_ppm) tolerance_ppm).bounds mass
      let window := binary_search_slice (fun f => f.2.monoisotopic_mass) frags b.1 b.2
      ((slice frags window).filter (fun f =>
          b.1 ≤ f.2.monoisotopic_mass ∧ f.2.monoisotopic_mass ≤ b.2)).map
        (fun f => ⟨peak.mass, peak.intensity, kindChar f.2.kind, f.1, c⟩)))

/-- The chromatogram extractor of `src/lfq.rs` (`xic`): 5 ppm bounds around
the target mass, binary search of the time-sorted spectra over
`[rt_min, rt_max]`, keep level-1 spectra, emit one sample per in-window
peak.  The rayon pipeline preserves order, embedded as `filter`/`flatMap`. -/
def xic (spectra : List ProcessedSpectrum) (rt_min rt_max mass : ℚ) : List Xic :=
  let b := (Tolerance.Ppm (-5) 5).bounds mass
  let window := binary_search_slice (fun s => s.scan_start_time) spectra rt_min rt_max
  ((slice spectra window).filter (fun s => s.level == 1)).flatMap (fun spectrum =>
    (spectrum.peaks.filter (fun peak => b.1 ≤ peak.mass ∧ peak.mass ≤ b.2)).map
      (fun peak => ⟨spectrum.scan_start_time, peak.mass, peak.intensity⟩))

/-- Modelled from the spec: the set of valid amino-acid symbols
(`sage_core::mass::VALID_AA` is external to this repository). -/
def VALID_AA : List Char :=
  ['A', 'C', 'D', 'E', 'F', 'G', 'H', 'I', 'K', 'L',
   'M', 'N', 'P', 'Q', 'R', 'S', 'T', 'V', 'W', 'Y']

/-- Modelled from the spec: residue monoisotopic masses
(`sage_core::mass::Residue::monoisotopic` is external to this repository). -/
def residueMass : List (Char × ℚ) :=
  [('G', 57021464 / 1000000), ('A', 71037114 / 1000000), ('S', 87032028 / 1000000),
   ('P', 97052764 / 1000000), ('V', 99068414 / 1000000), ('T', 101047678 / 1000000),
   ('C', 103009185 / 1000000), ('L', 113084064 / 1000000), ('I', 113084064 / 1000000),
   ('N', 114042927 / 1000000), ('D', 115026943 / 1000000), ('Q', 128058578 / 1000000),
   ('K', 128094963 / 1000000), ('E', 129042593 / 1000000), ('M', 131040485 / 1000000),
   ('H', 137058912 / 1000000), ('F', 147068414 / 1000000), ('R', 156101111 / 1000000),
   ('Y', 163063329 / 1000000), ('W', 186079313 / 1000000)]

/-- Monoisotopic mass of one residue character. -/
def monoisotopic (c : Char) : ℚ :=
  ((residueMass.lookup c).getD 0)

/-- Residue masses of a sequence with the static modifications of
`src/lib.rs` applied additively (`peptide.static_mod(resi, mass)` for each
map entry; modelled from the spec §4.3 for the external
`Peptide::static_mod`). -/
def applyMods (sequence : List Char) (mods : List (Char × ℚ)) : List ℚ :=
  sequence.map (fun ch =>
    monoisotopic ch + ((mods.filter (fun m => m.1 = ch)).map Prod.snd).sum)

/-- `Database::annotate_sequence` of `src/lib.rs`: reject the first residue
character outside `VALID_AA` with the error string
`"Sequence {sequence} contains invalid amino acid {c}"`, otherwise build the
peptide (default tolerance 10 ppm) and run the annotator. -/
def annotate_sequence (query : ProcessedSpectrum) (sequence : String)
    (tolerance_ppm : Option ℚ) (charge : Option ℕ) (mods : List (Char × ℚ)) :
    Except String (List AnnotatedPeak) :=
  match sequence.toList.find? (fun c => decide (c ∉ VALID_AA)) with
  | some c =>
    .error ("Sequence " ++ sequence ++ " contains invalid amino acid " ++ c.toString)
  | none =>
    .ok (annotate_peaks query (applyMods sequence.toList mods)
          (tolerance_ppm.getD 10) charge)

/-- The Peak Annotator as worded by the spec (§4.4): the flat multiset with
one `AnnotatedPeak` per triple of observed peak, trial charge
`c ∈ [1, max_charge)` and ladder entry whose mass lies in
`[peak.mass*c*(1 - t/1e6), peak.mass*c*(1 + t/1e6)]`. -/
def annotateSpec (query : ProcessedSpectrum) (peptide : List ℚ)
    (t : ℚ) (maxCharge : ℕ) : List AnnotatedPeak :=
  query.peaks.flatMap (fun peak =>
    (List.range' 1 (maxCharge - 1)).flatMap (fun c =>
      ((fragments peptide).filter (fun f =>
          peak.mass * (c : ℚ) * (1 - t / 1000000) ≤ f.2.monoisotopic_mass ∧
          f.2.monoisotopic_mass ≤ peak.mass * (c : ℚ) * (1 + t / 1000000))).map
        (fun f => ⟨peak.mass, peak.intensity, kindChar f.2.kind, f.1, c⟩)))

/-- The Chromatogram Extractor as worded by the spec (§4.5): one `XicSample`
per pair of a level-1 spectrum with retention time in `[rt_min, rt_max]` and
a peak with mass in `[m*(1 - 5/1e6), m*(1 + 5/1e6)]`. -/
def xicSpec (spectra : List ProcessedSpectrum) (rt_min rt_max m : ℚ) : List Xic :=
  (spectra.filter (fun s =>
      rt_min ≤ s.scan_start_time ∧ s.scan_start_time ≤ rt_max ∧ s.level = 1)).flatMap
    (fun s =>
      (s.peaks.filter (fun p =>
          m * (1 - 5 / 1000000) ≤ p.mass ∧ p.mass ≤ m * (1 + 5 / 1000000))).map
        (fun p => ⟨s.scan_start_time, p.mass, p.intensity⟩))

end Sage

namespace Sage

/-! Helper lemmas about the range-search primitive. -/

theorem take_length_takeWhile {α : Type} (p : α → Bool) (l : List α) :
    l.take (l.takeWhile p).length = l.takeWhile p :=
  (List.prefix_iff_eq_take.mp (List.takeWhile_prefix p)).symm

theorem drop_takeWhile_eq_dropWhile {α : Type} (ql qh : α → Bool) (l : List α) :
    (l.takeWhile qh).drop (l.takeWhile ql).length = (l.takeWhile qh).dropWhile ql := by
  induction l with
  | nil => rfl
  | cons a t ih =>
    by_cases hl : ql a
    · by_cases hh : qh a
      · simp [List.takeWhile_cons, hl, hh, ih]
      · simp [List.takeWhile_cons, hl, hh]
    · by_cases hh : qh a
      · simp [List.takeWhile_cons, hl, hh]
      · simp [List.takeWhile_cons, hl, hh]

theorem takeWhile_eq_filter_of_lo {α : Type} (key : α → ℚ) (lo hi : ℚ) :
    ∀ (l : List α), l.Pairwise (fun x y => key x ≤ key y) →
      (∀ x ∈ l, lo ≤ key x) →
      l.takeWhile (fun x => key x ≤ hi) =
        l.filter (fun x => lo ≤ key x ∧ key x ≤ hi)
  | [], _, _ => rfl
  | b :: s, hs, hlo => by
    rw [List.pairwise_cons] at hs
    by_cases hb : key b ≤ hi
    · rw [List.takeWhile_cons_of_pos (by simpa using hb)]
      rw [List.filter_cons_of_pos
        (by simp only [decide_eq_true_eq]
            exact ⟨hlo b (List.mem_cons_self b s), hb⟩)]
      rw [takeWhile_eq_filter_of_lo key lo hi s hs.2
        (fun x hx => hlo x (List.mem_cons_of_mem _ hx))]
    · rw [List.takeWhile_cons_of_neg (by simpa using hb)]
      rw [List.filter_cons_of_neg (by simp [hb])]
      symm
      rw [List.filter_eq_nil_iff]
      intro x hx
      simp only [decide_eq_true_eq, not_and]
      intro _ hxh
      exact hb (le_trans (hs.1 x hx) hxh)

theorem dropWhile_takeWhile_eq_filter {α : Type} (key : α → ℚ) (lo hi : ℚ) :
    ∀ (l : List α), l.Pairwise (fun x y => key x ≤ key y) →
      (l.takeWhile (fun x => key x ≤ hi)).dropWhile (fun x => key x < lo) =
        l.filter (fun x => lo ≤ key x ∧ key x ≤ hi)
  | [], _ => rfl
  | a :: t, hs => by
    rw [List.pairwise_cons] at hs
    by_cases hh : key a ≤ hi
    · rw [List.takeWhile_cons_of_pos (by simpa using hh)]
      by_cases hl : key a < lo
      · rw [List.dropWhile_cons_of_pos (by simpa using hl)]
        rw [List.filter_cons_of_neg
          (by simp only [decide_eq_true_eq, not_and]
              exact fun h => absurd h (not_le.mpr hl))]
        exact dropWhile_takeWhile_eq_filter key lo hi t hs.2
      · rw [List.dropWhile_cons_of_neg (by simpa using hl)]
        rw [List.filter_cons_of_pos
          (by simp only [decide_eq_true_eq]
              exact ⟨not_lt.mp hl, hh⟩)]
        rw [takeWhile_eq_filter_of_lo key lo hi t hs.2
          (fun x hx => le_trans (not_lt.mp hl) (hs.1 x hx))]
    · rw [List.takeWhile_cons_of_neg (by simpa using hh)]
      rw [List.filter_cons_of_neg
        (by simp only [decide_eq_true_eq, not_and]
            exact fun _ => hh)]
      rw [List.dropWhile_nil]
      symm
      rw [List.filter_eq_nil_iff]
      intro x hx
      simp only [decide_eq_true_eq, not_and]
      intro _ hxh
      exact hh (le_trans (hs.1 x hx) hxh)

theorem slice_binary_search {α : Type} (key : α → ℚ) (S : List α) (lo hi : ℚ)
    (hs : S.Pairwise (fun x y => key x ≤ key y)) :
    slice S (binary_search_slice key S lo hi) =
      S.filter (fun x => lo ≤ key x ∧ key x ≤ hi) := by
  show (S.take (upperIdx key S hi)).drop (lowerIdx key S lo) = _
  unfold upperIdx lowerIdx
  rw [take_length_takeWhile, drop_takeWhile_eq_dropWhile]
  exact dropWhile_takeWhile_eq_filter key lo hi S hs

theorem fragments_sorted (rs : List ℚ) :
    (fragments rs).Pairwise
      (fun x y => x.2.monoisotopic_mass ≤ y.2.monoisotopic_mass) := by
  have h := @List.sorted_mergeSort (ℕ × Ion) fragLe
      (fun x y z hxy hyz => by
        simp only [fragLe, decide_eq_true_eq] at hxy hyz ⊢
        exact le_trans hxy hyz)
      (fun x y => by
        simp only [fragLe, Bool.or_eq_true, decide_eq_true_eq]
        exact le_total _ _)
      (bLadder rs ++ yLadder rs)
  exact h.imp (fun hxy => by simpa [fragLe] using hxy)

theorem flatMap_congr {α β : Type} {l : List α} {f g : α → List β}
    (h : ∀ x ∈ l, f x = g x) : l.flatMap f = l.flatMap g := by
  simp only [List.flatMap]
  exact congrArg List.flatten (List.map_congr_left h)

theorem ppm_bounds_eq (t m : ℚ) :
    (Tolerance.Ppm (-t) t).bounds m =
      (m * (1 - t / 1000000), m * (1 + t / 1000000)) := by
  unfold Tolerance.bounds
  simp only [Prod.mk.injEq]
  constructor <;> ring_nf

/-- The annotator of the source refines the spec's flat-multiset form: the
binary-search window plus in-window filter selects exactly the ladder
entries inside the ppm bounds. -/
theorem annotate_peaks_eq_spec (q : ProcessedSpectrum) (pep : List ℚ)
    (t : ℚ) (c? : Option ℕ) :
    annotate_peaks q pep t c? = annotateSpec q pep t (c?.getD 2) := by
  simp only [annotate_peaks, annotateSpec, ppm_bounds_eq]
  refine flatMap_congr (fun peak _ => ?_)
  refine flatMap_congr (fun c _ => ?_)
  rw [slice_binary_search (fun f : ℕ × Ion => f.2.monoisotopic_mass) _ _ _ (fragments_sorted pep)]
  rw [List.filter_filter]
  refine congrArg _ (List.filter_congr (fun x _ => ?_))
  simp

/-- The extractor of the source refines the spec's pairwise form, given
time-sorted input. -/
theorem xic_eq_spec (spectra : List ProcessedSpectrum) (a b m : ℚ)
    (hs : spectra.Pairwise (fun s s' => s.scan_start_time ≤ s'.scan_start_time)) :
    xic spectra a b m = xicSpec spectra a b m := by
  simp only [xic, xicSpec, ppm_bounds_eq]
  rw [slice_binary_search (fun s : ProcessedSpectrum => s.scan_start_time) _ _ _ hs]
  rw [List.filter_filter]
  have hf :
      List.filter
          (fun s => (s.level == 1) &&
            decide (a ≤ s.scan_start_time ∧ s.scan_start_time ≤ b)) spectra =
        List.filter
          (fun s => decide (a ≤ s.scan_start_time ∧ s.scan_start_time ≤ b ∧ s.level = 1))
          spectra := by
    refine List.filter_congr (fun s _ => ?_)
    by_cases h1 : a ≤ s.scan_start_time <;>
      by_cases h2 : s.scan_start_time ≤ b <;>
      by_cases h3 : s.level = 1 <;>
      simp [h1, h2, h3]
  rw [hf]

end Sage

namespace Sage

theorem takeWhile_length_mono {α : Type} {p q : α → Bool}
    (h : ∀ x, p x = true → q x = true) :
    ∀ (l : List α), (l.takeWhile p).length ≤ (l.takeWhile q).length
  | [] => Nat.le_refl 0
  | a :: t => by
    by_cases hp : p a
    · rw [List.takeWhile_cons_of_pos hp, List.takeWhile_cons_of_pos (h a hp)]
      simpa using takeWhile_length_mono h t
    · rw [List.takeWhile_cons_of_neg hp]
      exact Nat.zero_le _

/-- C1: for every processed spectrum, peptide, tolerance `t > 0` and charge
argument (default 2), the annotator returns exactly one `AnnotatedPeak` per
triple of observed peak, trial charge `c ∈ [1, max_charge)` and ladder entry
whose mass lies in `[p.mass*c*(1 - t/1e6), p.mass*c*(1 + t/1e6)]`, carrying
the original peak mass and intensity, the ion kind and ordinal, and the
trial charge, with no ranking or deduplication (`annotateSpec` is that flat
multiset, spelled from the spec); with `max_charge = 1` no charge is tried
and the result is empty. -/
theorem annotate_exact_matches (q : ProcessedSpectrum) (pep : List ℚ)
    (t : ℚ) (c? : Option ℕ) (_ht : 0 < t) :
    annotate_peaks q pep t c? = annotateSpec q pep t (c?.getD 2) ∧
      annotate_peaks q pep t (some 1) = [] := by
  refine ⟨annotate_peaks_eq_spec q pep t c?, ?_⟩
  simp [annotate_peaks]

theorem annotate_exact_matches_witness :
    annotate_peaks ⟨2, 0, [⟨71, 1⟩, ⟨128, 2⟩]⟩ [71, 57] 10 none =
        annotateSpec ⟨2, 0, [⟨71, 1⟩, ⟨128, 2⟩]⟩ [71, 57] 10 2 ∧
      annotate_peaks ⟨2, 0, [⟨71, 1⟩, ⟨128, 2⟩]⟩ [71, 57] 10 (some 1) = [] :=
  annotate_exact_matches ⟨2, 0, [⟨71, 1⟩, ⟨128, 2⟩]⟩ [71, 57] 10 none (by norm_num)

/-- C2: for time-sorted spectra and `rt_min ≤ rt_max`, `xic` returns exactly
one sample per pair of a level-1 spectrum with retention time in the window
and a peak with mass within the default 5 ppm bounds of the target, carrying
that spectrum's retention time and the peak's mass and intensity; level ≠ 1
spectra contribute nothing (`xicSpec` is that pairwise form, spelled from
the spec). -/
theorem xic_exact_samples (spectra : List ProcessedSpectrum) (rt_min rt_max m : ℚ)
    (hs : spectra.Pairwise (fun s s' => s.scan_start_time ≤ s'.scan_start_time))
    (_hrt : rt_min ≤ rt_max) :
    xic spectra rt_min rt_max m = xicSpec spectra rt_min rt_max m :=
  xic_eq_spec spectra rt_min rt_max m hs

theorem xic_exact_samples_witness :
    xic [⟨1, 1, [⟨500, 100⟩]⟩, ⟨2, 2, [⟨500, 100⟩]⟩, ⟨1, 3, [⟨600, 100⟩]⟩] 1 3 500 =
      xicSpec [⟨1, 1, [⟨500, 100⟩]⟩, ⟨2, 2, [⟨500, 100⟩]⟩, ⟨1, 3, [⟨600, 100⟩]⟩] 1 3 500 :=
  xic_exact_samples _ 1 3 500 (by decide) (by norm_num)

/-- C4: on a sequence sorted ascending under `key` and bounds `lo ≤ hi`, the
bounded range search yields a window whose slice is exactly the elements in
`[lo, hi]` (all duplicates included), the window is well-formed (start ≤ end
≤ length, so slicing never panics), the empty sequence gives `(0, 0)`, and
an empty match set gives `(k, k)` at a valid insertion point `k`. -/
theorem binary_search_slice_exact {α : Type} (key : α → ℚ) (S : List α) (lo hi : ℚ)
    (hs : S.Pairwise (fun x y => key x ≤ key y)) (hlohi : lo ≤ hi) :
    slice S (binary_search_slice key S lo hi) =
        S.filter (fun x => lo ≤ key x ∧ key x ≤ hi) ∧
      (binary_search_slice key S lo hi).1 ≤ (binary_search_slice key S lo hi).2 ∧
      (binary_search_slice key S lo hi).2 ≤ S.length ∧
      binary_search_slice key ([] : List α) lo hi = (0, 0) ∧
      (S.filter (fun x => lo ≤ key x ∧ key x ≤ hi) = [] →
        (binary_search_slice key S lo hi).1 = (binary_search_slice key S lo hi).2) := by
  have hle : lowerIdx key S lo ≤ upperIdx key S hi := by
    unfold lowerIdx upperIdx
    refine takeWhile_length_mono (fun x hx => ?_) S
    simp only [decide_eq_true_eq] at hx ⊢
    exact le_trans (le_of_lt hx) hlohi
  have hlen : upperIdx key S hi ≤ S.length := by
    unfold upperIdx
    exact (List.takeWhile_prefix _).sublist.length_le
  refine ⟨slice_binary_search key S lo hi hs, hle, hlen, rfl, ?_⟩
  intro hnil
  have h0 : (slice S (binary_search_slice key S lo hi)).length = 0 := by
    rw [slice_binary_search key S lo hi hs, hnil]
    rfl
  have h1 : (slice S (binary_search_slice key S lo hi)).length =
      min (upperIdx key S hi) S.length - lowerIdx key S lo := by
    simp [slice, binary_search_slice]
  show lowerIdx key S lo = upperIdx key S hi
  omega

theorem binary_search_slice_exact_witness :
    slice [(1 : ℚ), 2, 2, 3] (binary_search_slice id [(1 : ℚ), 2, 2, 3] 2 2) =
        List.filter (fun x => 2 ≤ id x ∧ id x ≤ 2) [(1 : ℚ), 2, 2, 3] ∧
      (binary_search_slice id [(1 : ℚ), 2, 2, 3] 2 2).1 ≤
        (binary_search_slice id [(1 : ℚ), 2, 2, 3] 2 2).2 ∧
      (binary_search_slice id [(1 : ℚ), 2, 2, 3] 2 2).2 ≤
        [(1 : ℚ), 2, 2, 3].length ∧
      binary_search_slice id ([] : List ℚ) 2 2 = (0, 0) ∧
      (List.filter (fun x => 2 ≤ id x ∧ id x ≤ 2) [(1 : ℚ), 2, 2, 3] = [] →
        (binary_search_slice id [(1 : ℚ), 2, 2, 3] 2 2).1 =
          (binary_search_slice id [(1 : ℚ), 2, 2, 3] 2 2).2) :=
  binary_search_slice_exact id [(1 : ℚ), 2, 2, 3] 2 2 (by decide) (by norm_num)

theorem annotate_peaks_neg_tolerance (q : ProcessedSpectrum) (pep : List ℚ)
    (t : ℚ) (c? : Option ℕ) (ht : t < 0)
    (hp : ∀ p ∈ q.peaks, 0 < p.mass) :
    annotate_peaks q pep t c? = [] := by
  rw [annotate_peaks_eq_spec]
  unfold annotateSpec
  rw [List.flatMap_eq_nil_iff]
  intro peak hpeak
  rw [List.flatMap_eq_nil_iff]
  intro c hc
  rw [List.map_eq_nil_iff, List.filter_eq_nil_iff]
  intro f _
  simp only [decide_eq_true_eq, not_and]
  intro hlo hhi
  have hc1 : (1 : ℚ) ≤ (c : ℚ) := by
    rw [List.mem_range'] at hc
    obtain ⟨i, _, rfl⟩ := hc
    exact_mod_cast Nat.le_add_right 1 (1 * i)
  have hm : 0 < peak.mass * (c : ℚ) :=
    mul_pos (hp peak hpeak) (lt_of_lt_of_le one_pos hc1)
  nlinarith [hlo, hhi, hm, ht]

/-- C5 (amended): the source never signals a configuration error for a
non-positive tolerance — `annotate_peaks` is total; with `tolerance_ppm < 0`
and positive peak masses the ppm window is inverted and the call silently
returns the empty annotation set. -/
theorem annotate_negative_tolerance_silent (q : ProcessedSpectrum) (pep : List ℚ)
    (t : ℚ) (c? : Option ℕ) (ht : t < 0)
    (hp : ∀ p ∈ q.peaks, 0 < p.mass) :
    annotate_peaks q pep t c? = [] :=
  annotate_peaks_neg_tolerance q pep t c? ht hp

theorem annotate_negative_tolerance_silent_witness :
    annotate_peaks ⟨2, 0, [⟨100, 50⟩]⟩ [71, 57] (-10) none = [] :=
  annotate_negative_tolerance_silent ⟨2, 0, [⟨100, 50⟩]⟩ [71, 57] (-10) none
    (by norm_num) (by decide)

/-- C5 (counterexample to the claim as stated): a call with
`tolerance_ppm = -10 ≤ 0` does not fail — it succeeds with the empty
annotation set instead of signaling a configuration error. -/
theorem annotate_nonpositive_tolerance_no_error :
    annotate_sequence ⟨2, 0, [⟨100, 50⟩]⟩ "AG" (some (-10)) none [] =
      Except.ok [] := by
  have h : annotate_peaks ⟨2, 0, [⟨100, 50⟩]⟩ (applyMods "AG".toList []) (-10) none = [] :=
    annotate_peaks_neg_tolerance _ _ _ _ (by norm_num) (by decide)
  unfold annotate_sequence
  rw [show "AG".toList.find? (fun c => decide (c ∉ VALID_AA)) = none from rfl]
  rw [show (Option.getD (some (-10 : ℚ)) 10) = -10 from rfl]
  rw [h]

/-- C7: over a retention-time window containing no spectra, or containing
only spectra of level ≠ 1, `xic` yields the empty sequence (the function is
total — no error is signaled). -/
theorem xic_empty_window (spectra : List ProcessedSpectrum) (rt_min rt_max m : ℚ)
    (hs : spectra.Pairwise (fun s s' => s.scan_start_time ≤ s'.scan_start_time))
    (_hrt : rt_min ≤ rt_max)
    (h : (∀ s ∈ spectra,
            ¬(rt_min ≤ s.scan_start_time ∧ s.scan_start_time ≤ rt_max)) ∨
         (∀ s ∈ spectra,
            rt_min ≤ s.scan_start_time → s.scan_start_time ≤ rt_max →
              s.level ≠ 1)) :
    xic spectra rt_min rt_max m = [] := by
  rw [xic_eq_spec spectra rt_min rt_max m hs]
  unfold xicSpec
  have hnil : List.filter
      (fun s => decide (rt_min ≤ s.scan_start_time ∧
        s.scan_start_time ≤ rt_max ∧ s.level = 1)) spectra = [] := by
    rw [List.filter_eq_nil_iff]
    intro s hmem
    simp only [decide_eq_true_eq, not_and]
    rcases h with h | h
    · intro h1 h2
      exact absurd ⟨h1, h2⟩ (h s hmem)
    · intro h1 h2
      exact h s hmem h1 h2
  rw [hnil]
  rfl

theorem xic_empty_window_witness :
    xic [⟨2, 1, [⟨500, 100⟩]⟩, ⟨2, 2, [⟨500, 100⟩]⟩] 1 3 500 = [] :=
  xic_empty_window [⟨2, 1, [⟨500, 100⟩]⟩, ⟨2, 2, [⟨500, 100⟩]⟩] 1 3 500
    (by decide) (by norm_num) (Or.inr (by decide))

/-- C9: three level-1 spectra at retention times 1, 2, 3, each with one peak
of mass 500 and intensity 100, extracted over the window `[1.5, 2.5]` for
target mass 500 at the default 5 ppm, give exactly one sample:
retention time 2, mass 500, intensity 100. -/
theorem xic_concrete_scenario :
    xic [⟨1, 1, [⟨500, 100⟩]⟩, ⟨1, 2, [⟨500, 100⟩]⟩, ⟨1, 3, [⟨500, 100⟩]⟩]
        (3 / 2) (5 / 2) 500 = [⟨2, 500, 100⟩] := by
  norm_num [xic, Tolerance.bounds, binary_search_slice, lowerIdx, upperIdx, slice,
    List.takeWhile_cons, List.filter_cons, List.flatMap_cons]

end Sage

namespace Sage

theorem filter_sublist_mono {α : Type} {p q : α → Bool}
    (h : ∀ x, p x = true → q x = true) :
    ∀ (l : List α), List.Sublist (l.filter p) (l.filter q)
  | [] => List.Sublist.slnil
  | a :: t => by
    by_cases hp : p a
    · rw [List.filter_cons_of_pos hp, List.filter_cons_of_pos (h a hp)]
      exact (filter_sublist_mono h t).cons₂ a
    · rw [List.filter_cons_of_neg hp]
      by_cases hq : q a
      · rw [List.filter_cons_of_pos hq]
        exact (filter_sublist_mono h t).cons a
      · rw [List.filter_cons_of_neg hq]
        exact filter_sublist_mono h t

theorem flatMap_sublist_mono {α β : Type} {f g : α → List β} :
    ∀ {l : List α}, (∀ x ∈ l, List.Sublist (f x) (g x)) →
      List.Sublist (l.flatMap f) (l.flatMap g)
  | [], _ => List.Sublist.slnil
  | a :: t, h => by
    rw [List.flatMap_cons, List.flatMap_cons]
    exact List.Sublist.append (h a (List.mem_cons_self a t))
      (flatMap_sublist_mono (fun x hx => h x (List.mem_cons_of_mem a hx)))

/-- C8: for a fixed spectrum, peptide and charge argument, and tolerances
`0 < t1 ≤ t2`, every annotation produced at tolerance `t1` is contained (as
a multiset) in those produced at tolerance `t2` — widening the ppm tolerance
never shrinks the match set. -/
theorem annotate_tolerance_monotone (q : ProcessedSpectrum) (pep : List ℚ)
    (c? : Option ℕ) (t1 t2 : ℚ) (h1 : 0 < t1) (h12 : t1 ≤ t2) :
    (annotate_peaks q pep t1 c?).Subperm (annotate_peaks q pep t2 c?) := by
  refine List.Sublist.subperm ?_
  rw [annotate_peaks_eq_spec q pep t1 c?, annotate_peaks_eq_spec q pep t2 c?]
  unfold annotateSpec
  refine flatMap_sublist_mono (fun peak _ => ?_)
  refine flatMap_sublist_mono (fun c _ => ?_)
  refine List.Sublist.map _ (filter_sublist_mono (fun f hf => ?_) _)
  simp only [decide_eq_true_eq] at hf ⊢
  obtain ⟨hlo, hhi⟩ := hf
  have hmt : 0 ≤ peak.mass * (c : ℚ) * t1 := by nlinarith
  have hm0 : 0 ≤ peak.mass * (c : ℚ) := by
    by_contra hneg
    push_neg at hneg
    nlinarith [mul_neg_of_neg_of_pos hneg h1]
  have hscale : peak.mass * (c : ℚ) * t1 ≤ peak.mass * (c : ℚ) * t2 :=
    mul_le_mul_of_nonneg_left h12 hm0
  constructor
  · nlinarith
  · nlinarith

theorem annotate_tolerance_monotone_witness :
    (annotate_peaks ⟨2, 0, [⟨71, 1⟩]⟩ [71, 57] 5 none).Subperm
      (annotate_peaks ⟨2, 0, [⟨71, 1⟩]⟩ [71, 57] 10 none) :=
  annotate_tolerance_monotone ⟨2, 0, [⟨71, 1⟩]⟩ [71, 57] none 5 10
    (by norm_num) (by norm_num)

/-- C10: for time-sorted input the `xic` output is deterministically
ordered — it equals the spec's grouped form (samples grouped by source
spectrum in scan order, each group in original peak order), and it is
already sorted ascending by retention time, so callers need not re-sort. -/
theorem xic_output_ordered (spectra : List ProcessedSpectrum) (rt_min rt_max m : ℚ)
    (hs : spectra.Pairwise (fun s s' => s.scan_start_time ≤ s'.scan_start_time)) :
    xic spectra rt_min rt_max m = xicSpec spectra rt_min rt_max m ∧
      (xic spectra rt_min rt_max m).Pairwise (fun x y => x.rt ≤ y.rt) := by
  refine ⟨xic_eq_spec spectra rt_min rt_max m hs, ?_⟩
  rw [xic_eq_spec spectra rt_min rt_max m hs]
  unfold xicSpec
  rw [List.pairwise_flatMap]
  constructor
  · intro s _
    rw [List.pairwise_map]
    exact List.pairwise_of_forall (fun x y => le_refl _)
  · have hf : (spectra.filter (fun s =>
        decide (rt_min ≤ s.scan_start_time ∧
          s.scan_start_time ≤ rt_max ∧ s.level = 1))).Pairwise
        (fun s s' => s.scan_start_time ≤ s'.scan_start_time) :=
      hs.sublist (List.filter_sublist spectra)
    refine hf.imp ?_
    intro s s' hss x hx y hy
    simp only [List.mem_map] at hx hy
    obtain ⟨p, _, rfl⟩ := hx
    obtain ⟨p', _, rfl⟩ := hy
    exact hss

theorem xic_output_ordered_witness :
    xic [⟨1, 1, [⟨500, 100⟩]⟩, ⟨1, 2, [⟨500, 100⟩, ⟨600, 10⟩]⟩] 0 9 500 =
        xicSpec [⟨1, 1, [⟨500, 100⟩]⟩, ⟨1, 2, [⟨500, 100⟩, ⟨600, 10⟩]⟩] 0 9 500 ∧
      (xic [⟨1, 1, [⟨500, 100⟩]⟩, ⟨1, 2, [⟨500, 100⟩, ⟨600, 10⟩]⟩] 0 9 500).Pairwise
        (fun x y => x.rt ≤ y.rt) :=
  xic_output_ordered [⟨1, 1, [⟨500, 100⟩]⟩, ⟨1, 2, [⟨500, 100⟩, ⟨600, 10⟩]⟩] 0 9 500
    (by decide)

end Sage

namespace Sage

theorem length_ionSeriesB (rs : List ℚ) : (ionSeriesB rs).length = rs.length - 1 := by
  simp [ionSeriesB]

theorem length_ionSeriesY (rs : List ℚ) : (ionSeriesY rs).length = rs.length - 1 := by
  simp [ionSeriesY]

theorem bLadder_kind (rs : List ℚ) : ∀ x ∈ bLadder rs, x.2.kind = Kind.B := by
  intro x hx
  simp only [bLadder, List.mem_map] at hx
  obtain ⟨p, hp, rfl⟩ := hx
  have h2 : p.2 ∈ ionSeriesB rs :=
    List.getElem?_mem (List.mem_enum_iff_getElem?.mp hp)
  simp only [ionSeriesB, List.mem_map] at h2
  obtain ⟨i, _, h⟩ := h2
  rw [← h]

theorem yLadder_kind (rs : List ℚ) : ∀ x ∈ yLadder rs, x.2.kind = Kind.Y := by
  intro x hx
  simp only [yLadder, List.mem_map] at hx
  obtain ⟨p, hp, rfl⟩ := hx
  have h2 : p.2 ∈ ionSeriesY rs :=
    List.getElem?_mem (List.mem_enum_iff_getElem?.mp hp)
  simp only [ionSeriesY, List.mem_map] at h2
  obtain ⟨i, _, h⟩ := h2
  rw [← h]

theorem bLadder_map_fst (rs : List ℚ) :
    (bLadder rs).map Prod.fst = List.range' 1 (rs.length - 1) := by
  rw [bLadder, List.map_map]
  have h : (Prod.fst ∘ fun p : ℕ × Ion => (p.1 + 1, p.2)) =
      ((fun i => 1 + i) ∘ Prod.fst) := by
    funext p
    simp [Nat.add_comm]
  rw [h, ← List.map_map, List.enum_eq_enumFrom, List.enumFrom_map_fst,
      List.map_add_range', length_ionSeriesB]

theorem map_range_sub (k : ℕ) :
    (List.range k).map (fun i => k - i) = (List.range' 1 k).reverse := by
  induction k with
  | zero => rfl
  | succ k ih =>
    rw [List.range_succ_eq_map, List.range'_1_concat, List.reverse_append]
    simp only [List.map_cons, List.map_map, List.reverse_cons, List.reverse_nil,
      List.nil_append, List.singleton_append, Nat.sub_zero]
    congr 1
    · omega
    · rw [← ih]
      refine List.map_congr_left (fun i _ => ?_)
      simp [Nat.succ_sub_succ]

theorem yLadder_map_fst (rs : List ℚ) :
    (yLadder rs).map Prod.fst = (List.range' 1 (rs.length - 1)).reverse := by
  rw [yLadder, List.map_map]
  have h : (Prod.fst ∘ fun p : ℕ × Ion => (rs.length - (1 + p.1), p.2)) =
      ((fun i => rs.length - 1 - i) ∘ Prod.fst) := by
    funext p
    simp only [Function.comp_apply]
    omega
  rw [h, ← List.map_map, List.enum_eq_enumFrom, List.enumFrom_map_fst,
      length_ionSeriesY, ← List.range_eq_range', map_range_sub]

theorem filter_ladder_b (rs : List ℚ) :
    (bLadder rs ++ yLadder rs).filter (fun f => decide (f.2.kind = Kind.B)) =
      bLadder rs := by
  rw [List.filter_append,
      List.filter_eq_self.mpr (fun x hx => by simp [bLadder_kind rs x hx]),
      List.filter_eq_nil_iff.mpr (fun x hx => by simp [yLadder_kind rs x hx]),
      List.append_nil]

theorem filter_ladder_y (rs : List ℚ) :
    (bLadder rs ++ yLadder rs).filter (fun f => decide (f.2.kind = Kind.Y)) =
      yLadder rs := by
  rw [List.filter_append,
      List.filter_eq_nil_iff.mpr (fun x hx => by simp [bLadder_kind rs x hx]),
      List.filter_eq_self.mpr (fun x hx => by simp [yLadder_kind rs x hx]),
      List.nil_append]

/-- C3: for a peptide of length `n ≥ 2` the ladder has exactly `2(n-1)`
entries, sorted ascending by monoisotopic mass; its B ordinals are exactly
`1..n-1` (each exactly once), its Y ordinals are exactly `1..n-1` (each
exactly once), and the `i`-th generated Y fragment (0-based) carries
ordinal `n - 1 - i`, computed with saturating ℕ subtraction so it is never
negative. -/
theorem fragment_ladder_shape (rs : List ℚ) (_h2 : 2 ≤ rs.length) :
    (fragments rs).length = 2 * (rs.length - 1) ∧
      (fragments rs).Pairwise
        (fun x y => x.2.monoisotopic_mass ≤ y.2.monoisotopic_mass) ∧
      List.Perm (((fragments rs).filter (fun f => f.2.kind = Kind.B)).map Prod.fst)
        (List.range' 1 (rs.length - 1)) ∧
      List.Perm (((fragments rs).filter (fun f => f.2.kind = Kind.Y)).map Prod.fst)
        (List.range' 1 (rs.length - 1)) ∧
      ∀ i (h : i < (yLadder rs).length),
        ((yLadder rs).get ⟨i, h⟩).1 = rs.length - 1 - i := by
  refine ⟨?_, fragments_sorted rs, ?_, ?_, ?_⟩
  · simp only [fragments, List.length_mergeSort, List.length_append, bLadder, yLadder,
      List.length_map, List.enum_eq_enumFrom, List.enumFrom_length,
      length_ionSeriesB, length_ionSeriesY]
    omega
  · have hperm := (List.mergeSort_perm (bLadder rs ++ yLadder rs) fragLe).filter
      (fun f => decide (f.2.kind = Kind.B))
    have hmap := hperm.map Prod.fst
    rw [filter_ladder_b, bLadder_map_fst] at hmap
    exact hmap
  · have hperm := (List.mergeSort_perm (bLadder rs ++ yLadder rs) fragLe).filter
      (fun f => decide (f.2.kind = Kind.Y))
    have hmap := hperm.map Prod.fst
    rw [filter_ladder_y, yLadder_map_fst] at hmap
    exact hmap.trans (List.reverse_perm _)
  · intro i h
    simp only [yLadder, List.get_eq_getElem, List.getElem_map, List.enum_eq_enumFrom,
      List.getElem_enumFrom]
    omega

theorem fragment_ladder_shape_witness :
    (fragments [71, 57, 99]).length = 2 * (([71, 57, 99] : List ℚ).length - 1) ∧
      (fragments [71, 57, 99]).Pairwise
        (fun x y => x.2.monoisotopic_mass ≤ y.2.monoisotopic_mass) ∧
      List.Perm
        (((fragments [71, 57, 99]).filter (fun f => f.2.kind = Kind.B)).map Prod.fst)
        (List.range' 1 (([71, 57, 99] : List ℚ).length - 1)) ∧
      List.Perm
        (((fragments [71, 57, 99]).filter (fun f => f.2.kind = Kind.Y)).map Prod.fst)
        (List.range' 1 (([71, 57, 99] : List ℚ).length - 1)) ∧
      ∀ i (h : i < (yLadder [71, 57, 99]).length),
        ((yLadder [71, 57, 99]).get ⟨i, h⟩).1 = ([71, 57, 99] : List ℚ).length - 1 - i :=
  fragment_ladder_shape [71, 57, 99] (by decide)

end Sage

namespace Sage

/-- C6: `annotate_sequence` fails exactly when the sequence contains a
character outside the valid amino-acid alphabet; the error message names an
offending character and the full sequence; the check runs before ladder
construction, so a failing call produces no annotations (the error carries
none); on a fully valid sequence no validation error is raised and the
annotator runs. -/
theorem annotate_sequence_validation (q : ProcessedSpectrum) (s : String)
    (t : Option ℚ) (c? : Option ℕ) (mods : List (Char × ℚ)) :
    ((∃ e, annotate_sequence q s t c? mods = Except.error e) ↔
        ∃ ch ∈ s.toList, ch ∉ VALID_AA) ∧
      (∀ e, annotate_sequence q s t c? mods = Except.error e →
        ∃ ch ∈ s.toList, ch ∉ VALID_AA ∧
          e = "Sequence " ++ s ++ " contains invalid amino acid " ++ ch.toString) ∧
      ((∀ ch ∈ s.toList, ch ∈ VALID_AA) →
        annotate_sequence q s t c? mods =
          Except.ok (annotate_peaks q (applyMods s.toList mods) (t.getD 10) c?)) := by
  cases hf : s.toList.find? (fun c => decide (c ∉ VALID_AA)) with
  | none =>
    have hall : ∀ ch ∈ s.toList, ch ∈ VALID_AA := by
      rw [List.find?_eq_none] at hf
      intro ch hm
      have := hf ch hm
      simp only [decide_eq_true_eq, not_not] at this
      exact this
    have hok : annotate_sequence q s t c? mods =
        Except.ok (annotate_peaks q (applyMods s.toList mods) (t.getD 10) c?) := by
      unfold annotate_sequence
      rw [hf]
    refine ⟨⟨?_, ?_⟩, ?_, fun _ => hok⟩
    · rintro ⟨e, he⟩
      rw [hok] at he
      exact Except.noConfusion he
    · rintro ⟨ch, hm, hv⟩
      exact absurd (hall ch hm) hv
    · intro e he
      rw [hok] at he
      exact Except.noConfusion he
  | some ch =>
    have hp : ch ∉ VALID_AA := by
      have := List.find?_some hf
      simpa using this
    have hmem : ch ∈ s.toList := List.mem_of_find?_eq_some hf
    have herr : annotate_sequence q s t c? mods =
        Except.error
          ("Sequence " ++ s ++ " contains invalid amino acid " ++ ch.toString) := by
      unfold annotate_sequence
      rw [hf]
    refine ⟨⟨fun _ => ⟨ch, hmem, hp⟩, fun _ => ⟨_, herr⟩⟩, ?_, ?_⟩
    · intro e he
      rw [herr] at he
      refine ⟨ch, hmem, hp, ?_⟩
      injection he with h
      exact h.symm
    · intro hall
      exact absurd (hall ch hmem) hp

theorem annotate_sequence_validation_witness :
    annotate_sequence ⟨2, 0, [⟨100, 50⟩]⟩ "AG" none none [] =
      Except.ok (annotate_peaks ⟨2, 0, [⟨100, 50⟩]⟩ (applyMods "AG".toList []) 10 none) :=
  (annotate_sequence_validation ⟨2, 0, [⟨100, 50⟩]⟩ "AG" none none []).2.2 (by decide)

end Sage
